import Mathlib

/-!
Verification of the gvmi repository: a pairwise mutual-information engine for
gene-expression matrices, together with its benchmark driver (`benchmark.py`)
and the pickle-inspection utility (`inspect_pickle.py`).

The engine itself (`compute_mutual_information`, a compiled extension) is not
part of the repository sources; it is modelled here from the specification.
The two Python collaborators are embedded from their sources.  Real values are
modelled as rationals; the logarithm used by the entropy estimator is an
explicit function parameter, so that every theorem states exactly which
property of the logarithm it needs.
-/

namespace GVMI

/-- Modelled from the spec: the Discretizer (§4.1).  Given a bin count `B` and a
real-valued vector, produces `B` contiguous equal-width bins spanning
`[min v, max v]` and maps each sample to its 0-indexed bin, the final bin being
right-closed (the maximum lands in bin `B - 1`).  Zero range maps every sample
to bin 0. -/
def discretize (B : Nat) (v : List ℚ) : List Nat :=
  match v with
  | [] => []
  | x :: xs =>
    let lo := xs.foldl min x
    let hi := xs.foldl max x
    if hi = lo then (x :: xs).map (fun _ => 0)
    else (x :: xs).map (fun y => min (B - 1) (Int.toNat (Int.floor ((y - lo) * (B : ℚ) / (hi - lo)))))

/-- Modelled from the spec: one term `p·log p` of the entropy sum (§4.2), with a
zero count contributing `0` (the `0·log 0 = 0` convention). -/
def entTerm (lg : ℚ → ℚ) (m : Nat) (c : Nat) : ℚ :=
  if c = 0 then 0 else ((c : ℚ) / (m : ℚ)) * lg ((c : ℚ) / (m : ℚ))

/-- Modelled from the spec: Shannon entropy `−Σ p·log p` of a histogram of
counts over `m` samples (§4.2, §4.3). -/
def entropy (lg : ℚ → ℚ) (m : Nat) (counts : List Nat) : ℚ :=
  -((counts.map (entTerm lg m)).sum)

/-- Modelled from the spec: the marginal occupancy histogram of a discretized
vector over the `B` bins (§4.2). -/
def histogram (B : Nat) (d : List Nat) : List Nat :=
  (List.range B).map (fun k => d.count k)

/-- Modelled from the spec: the Joint Histogram Estimator (§4.3) — the flattened
`B×B` occupancy table obtained by pairing the two vectors sample-wise. -/
def jointCounts (B : Nat) (d1 d2 : List Nat) : List Nat :=
  (List.range B).flatMap (fun k => (List.range B).map (fun l => (d1.zip d2).count (k, l)))

/-- Modelled from the spec: enumeration of the `n(n+1)/2` unordered index pairs
`(i, j)` with `i ≤ j`, diagonal included, in increasing `i` then increasing
`j ≥ i` (§4.4). -/
def pairList (n : Nat) : List (Nat × Nat) :=
  (List.range n).flatMap (fun i => ((List.range n).filter (fun j => i ≤ j)).map (fun j => (i, j)))

/-- Modelled from the spec: the empty (unwritten) result table. -/
def emptyTable : Nat → Nat → Option ℚ := fun _ _ => none

/-- Modelled from the spec: writing one pair's MI value into both the `(i, j)`
and the `(j, i)` slot of the table (§4.4: written once and mirrored). -/
def applyWrite (t : Nat → Nat → Option ℚ) (p : Nat × Nat) (v : ℚ) : Nat → Nat → Option ℚ :=
  fun a b => if (a = p.1 ∧ b = p.2) ∨ (a = p.2 ∧ b = p.1) then some v else t a b

/-- Modelled from the spec: the Pairwise MI Engine's fill of the symmetric
table, processing a work list of pairs (§4.4, §5). -/
def buildTable (mi : Nat → Nat → ℚ) (ps : List (Nat × Nat)) (t0 : Nat → Nat → Option ℚ) :
    Nat → Nat → Option ℚ :=
  ps.foldl (fun t p => applyWrite t p (mi p.1 p.2)) t0

/-- Modelled from the spec: one pair's MI, `H(i) + H(j) − H(i,j)`, computed from
the cached discretizations `ds` and cached marginal entropies `hs`, with tiny
negative floating artifacts clamped to `0` (§4.4). -/
def miPair (lg : ℚ → ℚ) (m B : Nat) (ds : List (List Nat)) (hs : List ℚ) (i j : Nat) : ℚ :=
  let raw := hs.getD i 0 + hs.getD j 0 - entropy lg m (jointCounts B (ds.getD i []) (ds.getD j []))
  if raw < 0 then 0 else raw

/-- Python-dict lookup on an association list built by successive insertions:
a later binding for the same key overwrites an earlier one, so the lookup
returns the value of the last matching binding. -/
def dlookup {α : Type _} : List (String × α) → String → Option α
  | [], _ => none
  | (k, v) :: rest, key =>
    match dlookup rest key with
    | some w => some w
    | none => if k = key then some v else none

/-- Lookup in the nested gene→gene→MI mapping: outer key then inner key. -/
def lookup2 (t : List (String × List (String × ℚ))) (g1 g2 : String) : Option ℚ :=
  match dlookup t g1 with
  | none => none
  | some inner => dlookup inner g2

/-- A keyed row built positionally from label and value functions; used to
express the Result Assembler's nested mapping. -/
def rowOf {α : Type _} (g : Nat → String) (v : Nat → α) (n : Nat) : List (String × α) :=
  (List.range n).map (fun j => (g j, v j))

/-- The largest index `j < n` with `g j = key`, i.e. the binding that survives
Python-dict overwrite semantics. -/
def lastIdx (g : Nat → String) : Nat → String → Option Nat
  | 0, _ => none
  | n + 1, key => if g n = key then some n else lastIdx g n key

/-- Modelled from the spec: the Result Assembler (§4.5) — converts the
symmetric table plus the ordered label list into the nested label-keyed
mapping, both directions populated, diagonal included. -/
def assemble (labels : List String) (t : Nat → Nat → Option ℚ) :
    List (String × List (String × ℚ)) :=
  rowOf (fun i => labels.getD i "")
    (fun i => rowOf (fun j => labels.getD j "") (fun j => (t i j).getD 0) labels.length)
    labels.length

/-- Modelled from the spec: the full engine run, but processing an arbitrary
work list `ps` of index pairs (the schedule handed to the worker pool, §5). -/
def computeMIWith (lg : ℚ → ℚ) (B : Nat) (rows : List (List ℚ)) (labels : List String)
    (ps : List (Nat × Nat)) : List (String × List (String × ℚ)) :=
  let m := (rows.getD 0 []).length
  let ds := rows.map (discretize B)
  let hs := ds.map (fun d => entropy lg m (histogram B d))
  assemble labels (buildTable (miPair lg m B ds hs) ps emptyTable)

/-- Modelled from the spec: `compute_mutual_information` (§6) — the engine's
single entry point, enumerating the canonical pair list. -/
def computeMI (lg : ℚ → ℚ) (B : Nat) (rows : List (List ℚ)) (labels : List String) :
    List (String × List (String × ℚ)) :=
  computeMIWith lg B rows labels (pairList labels.length)

/-- From `benchmark.py` (`benchmark_mutual_info` and
`benchmark_anndata_mutual_info`): the reported pair count
`n_pairs = (n_genes * (n_genes + 1)) // 2`. -/
def benchNPairs (n : Nat) : Nat := n * (n + 1) / 2

/-- The AnnData expression matrix `adata.X`, stored samples-by-genes
(`n_obs × n_vars`), either dense or sparse (coordinate entries). -/
inductive AnnX where
  | dense (rows : List (List ℚ))
  | sparse (nObs nVars : Nat) (entries : List (Nat × Nat × ℚ))

/-- The value of a sparse matrix at one position (duplicate coordinate
entries summed, as in a COO matrix). -/
def sparseAt (entries : List (Nat × Nat × ℚ)) (i j : Nat) : ℚ :=
  (entries.map (fun e => if e.1 = i ∧ e.2.1 = j then e.2.2 else 0)).sum

/-- Densification of `adata.X` (`toarray` for the sparse case). -/
def toDense : AnnX → List (List ℚ)
  | .dense rows => rows
  | .sparse r c entries =>
    (List.range r).map (fun i => (List.range c).map (fun j => sparseAt entries i j))

/-- Matrix transposition (`adata.X.T`): column `j` of the input becomes
row `j` of the output. -/
def transposeMat (x : List (List ℚ)) : List (List ℚ) :=
  (List.range ((x.getD 0 []).length)).map (fun j => x.filterMap (fun row => row[j]?))

/-- From `benchmark.py` (`benchmark_anndata_mutual_info`): the loaded matrix is
transposed into (genes, samples) orientation and densified before the engine
is called. -/
def loadMatrix (x : AnnX) : List (List ℚ) := transposeMat (toDense x)

/-- The stored shape of `adata.X`: (number of samples, number of genes). -/
def annShape : AnnX → Nat × Nat
  | .dense rows => (rows.length, (rows.getD 0 []).length)
  | .sparse r c _ => (r, c)

/-- Well-formedness of the stored matrix: a dense matrix is rectangular. -/
def annWF : AnnX → Prop
  | .dense rows => ∀ r ∈ rows, r.length = (rows.getD 0 []).length
  | .sparse _ _ _ => True

/-- From `benchmark.py` (`benchmark_anndata_mutual_info`): the optional
`max_genes` truncation.  Python truthiness: `if max_genes and len(genes) >
max_genes`, so `None` and `0` both leave the data unchanged. -/
def applyMaxGenes (maxGenes : Option Nat) (matrix : List (List ℚ)) (genes : List String) :
    List (List ℚ) × List String :=
  match maxGenes with
  | none => (matrix, genes)
  | some m =>
    if m ≠ 0 ∧ m < genes.length then (matrix.take m, genes.take m) else (matrix, genes)

/-- A Python value stored in the persisted pickle record. -/
inductive PValue where
  | int (n : Int)
  | num (q : ℚ)
  | str (s : String)
  | table (t : List (String × List (String × ℚ)))
  | strs (l : List String)
  | meta (d : List (String × String))
  deriving DecidableEq

/-- Python's `key in data` membership test on the record dict. -/
def hasKey (d : List (String × PValue)) (k : String) : Bool :=
  d.any (fun p => p.1 == k)

/-- Python's `data[key]` subscript: the bound value, or a `KeyError`. -/
def pyGet (d : List (String × PValue)) (k : String) : Except String PValue :=
  match dlookup d k with
  | some v => Except.ok v
  | none => Except.error ("KeyError: " ++ k)

/-- Using a record value as an int (raises a type error otherwise). -/
def asInt : PValue → Except String Int
  | .int n => Except.ok n
  | _ => Except.error "TypeError: int expected"

/-- Using a record value as a number (raises a type error otherwise). -/
def asNum : PValue → Except String ℚ
  | .int n => Except.ok (n : ℚ)
  | .num q => Except.ok q
  | _ => Except.error "TypeError: number expected"

/-- Using a record value as a string (raises a type error otherwise). -/
def asStr : PValue → Except String String
  | .str s => Except.ok s
  | _ => Except.error "TypeError: str expected"

/-- Using a record value as the nested MI mapping. -/
def asTable : PValue → Except String (List (String × List (String × ℚ)))
  | .table t => Except.ok t
  | _ => Except.error "TypeError: dict expected"

/-- Using a record value as the gene list. -/
def asStrs : PValue → Except String (List String)
  | .strs l => Except.ok l
  | _ => Except.error "TypeError: list expected"

/-- Using a record value as the metadata dict. -/
def asMeta : PValue → Except String (List (String × String))
  | .meta d => Except.ok d
  | _ => Except.error "TypeError: dict expected"

/-- From `inspect_pickle.py` (`inspect_pickle`, diagonal branch of the pair
extraction): the values collected into `diagonal_values`, i.e. the entries
whose two label keys are equal. -/
def diagonalValues (t : List (String × List (String × ℚ))) : List ℚ :=
  t.flatMap (fun p => p.2.filterMap (fun q => if p.1 = q.1 then some q.2 else none))

/-- From `inspect_pickle.py` (`inspect_pickle`, cross branch of the pair
extraction): the entries appended to `all_pairs` — unequal keys, and only in
the orientation where the outer key is lexicographically smaller. -/
def crossPairs (t : List (String × List (String × ℚ))) : List ((String × String) × ℚ) :=
  t.flatMap (fun p => p.2.filterMap (fun q =>
    if p.1 = q.1 then none else if p.1 < q.1 then some ((p.1, q.1), q.2) else none))

/-- From `benchmark.py` (`main`, top-pairs extraction): every off-diagonal
entry is appended, in both orientations. -/
def benchCrossPairs (t : List (String × List (String × ℚ))) : List ((String × String) × ℚ) :=
  t.flatMap (fun p => p.2.filterMap (fun q =>
    if p.1 = q.1 then none else some ((p.1, q.1), q.2)))

/-- A nested MI mapping fully populated over a label list: one outer row per
label, each containing one entry per label. -/
def fullTable (L : List String) (f : String → String → ℚ) :
    List (String × List (String × ℚ)) :=
  L.map (fun g1 => (g1, L.map (fun g2 => (g2, f g1 g2))))

/-- The data `inspect_pickle` derives from a loaded record. -/
abbrev InspectOut :=
  Int × Int × ℚ × String × List ℚ × List ((String × String) × ℚ) ×
    Option (List (String × String))

/-- From `inspect_pickle.py` (`inspect_pickle`, after a successful load): the
sequence of record accesses the function performs — the six required fields
by plain subscript, then the pair extraction, then `metadata` only under the
explicit `detailed and 'metadata' in data` presence check. -/
def inspectRecord (d : List (String × PValue)) (detailed : Bool) :
    Except String InspectOut := do
  let ng ← pyGet d "n_genes" >>= asInt
  let np ← pyGet d "n_pairs" >>= asInt
  let ct ← pyGet d "computation_time" >>= asNum
  let ts ← pyGet d "timestamp" >>= asStr
  let mi ← pyGet d "mutual_information" >>= asTable
  let _gs ← pyGet d "genes" >>= asStrs
  let md ←
    if detailed && hasKey d "metadata" then do
      let v ← pyGet d "metadata"
      let dd ← asMeta v
      pure (some dd)
    else
      pure none
  pure (ng, np, ct, ts, diagonalValues mi, crossPairs mi, md)

/-- The state of the pickle file named on the command line: missing,
present but not loadable, or loadable to a record dict. -/
inductive FileState where
  | missing
  | unreadable
  | loaded (d : List (String × PValue))
  deriving DecidableEq

/-- The observable outcome of running the inspection utility. -/
inductive Outcome where
  | exited (code : Nat)
  | raised (e : String)
  | finished (out : InspectOut)

/-- From `inspect_pickle.py` (`inspect_pickle`): the `try`/`except` around
loading prints a diagnostic and exits with status 1 on any load failure
(a missing file also raises there and is caught); errors raised after a
successful load propagate as raw exceptions. -/
def runInspect (fs : String → FileState) (path : String) (detailed : Bool) : Outcome :=
  match fs path with
  | FileState.missing => Outcome.exited 1
  | FileState.unreadable => Outcome.exited 1
  | FileState.loaded d =>
    match inspectRecord d detailed with
    | Except.ok out => Outcome.finished out
    | Except.error e => Outcome.raised e

/-- From `inspect_pickle.py` (`main`): the existence check on the argument —
a missing file prints a diagnostic and exits with status 1 before
`inspect_pickle` is called. -/
def mainInspect (fs : String → FileState) (path : String) (detailed : Bool) : Outcome :=
  match fs path with
  | FileState.missing => Outcome.exited 1
  | _ => runInspect fs path detailed

/-- Appending one binding: the lookup prefers the appended (latest) binding. -/
theorem dlookup_append_single {α : Type _} (l : List (String × α)) (k : String) (v : α)
    (key : String) :
    dlookup (l ++ [(k, v)]) key = if k = key then some v else dlookup l key := by
  induction l with
  | nil => simp [dlookup]
  | cons p l ih =>
    obtain ⟨k0, v0⟩ := p
    simp only [List.cons_append, dlookup, List.append_eq]
    rw [ih]
    by_cases hk : k = key
    · simp [hk]
    · simp [hk]

/-- Peeling the last entry off a positionally built row. -/
theorem rowOf_succ {α : Type _} (g : Nat → String) (v : Nat → α) (n : Nat) :
    rowOf g v (n + 1) = rowOf g v n ++ [(g n, v n)] := by
  simp [rowOf, List.range_succ]

/-- Dict lookup on a positionally built row returns the value at the last
index carrying the key. -/
theorem dlookup_rowOf {α : Type _} (g : Nat → String) (v : Nat → α) (n : Nat) (key : String) :
    dlookup (rowOf g v n) key = (lastIdx g n key).map v := by
  induction n with
  | zero => simp [rowOf, dlookup, lastIdx]
  | succ n ih =>
    rw [rowOf_succ, dlookup_append_single, ih]
    by_cases h : g n = key
    · simp [lastIdx, h]
    · simp [lastIdx, h]

/-- Looking up the assembled nested mapping resolves both labels to their
last positional index and reads the table there. -/
theorem lookup2_assemble (labels : List String) (t : Nat → Nat → Option ℚ) (g1 g2 : String) :
    lookup2 (assemble labels t) g1 g2 =
      (lastIdx (fun i => labels.getD i "") labels.length g1).bind (fun i =>
        (lastIdx (fun j => labels.getD j "") labels.length g2).map (fun j => (t i j).getD 0)) := by
  unfold lookup2 assemble
  rw [dlookup_rowOf]
  cases h : lastIdx (fun i => labels.getD i "") labels.length g1 with
  | none => simp
  | some i => simp [dlookup_rowOf]

/-- Membership in the canonical pair enumeration. -/
theorem mem_pairList (n i j : Nat) : (i, j) ∈ pairList n ↔ i ≤ j ∧ j < n := by
  simp only [pairList, List.mem_flatMap, List.mem_map, List.mem_filter, List.mem_range,
    decide_eq_true_eq]
  constructor
  · rintro ⟨a, ha, b, ⟨hb, hab⟩, heq⟩
    obtain ⟨rfl, rfl⟩ := Prod.mk.injEq .. ▸ heq
    omega
  · rintro ⟨hij, hj⟩
    exact ⟨i, by omega, j, ⟨hj, hij⟩, rfl⟩

/-- Every enumerated pair is in upper-triangular form. -/
theorem pairList_le (n : Nat) : ∀ p ∈ pairList n, p.1 ≤ p.2 := by
  rintro ⟨i, j⟩ hp
  exact ((mem_pairList n i j).1 hp).1

/-- Characterization of the engine's table fill over any upper-triangular work
list: a slot holds the MI of its unordered pair exactly when that pair is in
the work list, and the order of the work list is irrelevant. -/
theorem buildTable_eq (mi : Nat → Nat → ℚ) (ps : List (Nat × Nat)) (t0 : Nat → Nat → Option ℚ)
    (hps : ∀ p ∈ ps, p.1 ≤ p.2) (a b : Nat) :
    buildTable mi ps t0 a b =
      if (min a b, max a b) ∈ ps then some (mi (min a b) (max a b)) else t0 a b := by
  induction ps generalizing t0 with
  | nil => simp [buildTable]
  | cons p ps ih =>
    obtain ⟨x, y⟩ := p
    have hxy : x ≤ y := hps (x, y) (List.mem_cons_self _ _)
    have htail : ∀ q ∈ ps, q.1 ≤ q.2 := fun q hq => hps q (List.mem_cons_of_mem _ hq)
    show buildTable mi ps (applyWrite t0 (x, y) (mi x y)) a b = _
    rw [ih _ htail]
    by_cases hmem : (min a b, max a b) ∈ ps
    · simp [hmem, List.mem_cons]
    · by_cases hab : (a = x ∧ b = y) ∨ (a = y ∧ b = x)
      · have hminmax : min a b = x ∧ max a b = y := by omega
        simp [hmem, applyWrite, hab, List.mem_cons, Prod.mk.injEq, hminmax.1, hminmax.2]
      · have hne : ¬((min a b, max a b) = (x, y)) := by
          simp only [Prod.mk.injEq]
          omega
        simp only [hmem, if_neg hmem, List.mem_cons, hne, or_false, if_neg hne]
        simp [applyWrite, hab]

/-- The filled table is symmetric: both slots of an unordered pair hold the
same stored value. -/
theorem buildTable_symm (mi : Nat → Nat → ℚ) (ps : List (Nat × Nat))
    (hps : ∀ p ∈ ps, p.1 ≤ p.2) (a b : Nat) :
    buildTable mi ps emptyTable a b = buildTable mi ps emptyTable b a := by
  rw [buildTable_eq mi ps emptyTable hps a b, buildTable_eq mi ps emptyTable hps b a,
    Nat.min_comm b a, Nat.max_comm b a]
  simp [emptyTable]

/-- How many `j < n` satisfy `i ≤ j`. -/
theorem length_filter_le_range (n i : Nat) :
    ((List.range n).filter (fun j => i ≤ j)).length = n - i := by
  induction n with
  | zero => simp
  | succ n ih =>
    rw [List.range_succ, List.filter_append, List.length_append, ih]
    by_cases h : i ≤ n
    · simp [h]
      omega
    · simp [h]
      omega

/-- Gauss sum for the triangular pair count. -/
theorem sum_range_sub (n : Nat) : 2 * ((List.range n).map (fun i => n - i)).sum = n * (n + 1) := by
  induction n with
  | zero => simp
  | succ n ih =>
    rw [List.range_succ_eq_map, List.map_cons, List.sum_cons, List.map_map]
    have hmap : ((List.range n).map ((fun i => n + 1 - i) ∘ Nat.succ)).sum
        = ((List.range n).map (fun i => n - i)).sum := by
      congr 1
      apply List.map_congr_left
      intro i _
      simp [Function.comp, Nat.succ_sub_succ]
    rw [hmap]
    simp only [Nat.sub_zero]
    have h2 : 2 * (n + 1 + ((List.range n).map (fun i => n - i)).sum)
        = 2 * (n + 1) + 2 * ((List.range n).map (fun i => n - i)).sum := by ring
    rw [h2, ih]
    ring

/-- The canonical pair enumeration has exactly `n(n+1)/2` elements. -/
theorem length_pairList (n : Nat) : (pairList n).length = n * (n + 1) / 2 := by
  have h1 : (pairList n).length = ((List.range n).map (fun i => n - i)).sum := by
    rw [pairList, List.length_flatMap]
    congr 1
    apply List.map_congr_left
    intro i _
    simp [Function.comp, List.length_map, length_filter_le_range]
  have h2 := sum_range_sub n
  omega

/-- A successful `lastIdx` returns a valid index carrying the key. -/
theorem lastIdx_spec (g : Nat → String) (n : Nat) (key : String) (j : Nat)
    (h : lastIdx g n key = some j) : j < n ∧ g j = key := by
  induction n with
  | zero => simp [lastIdx] at h
  | succ n ih =>
    by_cases hg : g n = key
    · simp only [lastIdx, if_pos hg, Option.some.injEq] at h
      subst h
      exact ⟨Nat.lt_succ_self n, hg⟩
    · simp only [lastIdx, if_neg hg] at h
      obtain ⟨h1, h2⟩ := ih h
      exact ⟨by omega, h2⟩

/-- If some index carries the key, `lastIdx` finds one. -/
theorem lastIdx_exists (g : Nat → String) (n : Nat) (key : String) (i : Nat)
    (hi : i < n) (hg : g i = key) : ∃ j, lastIdx g n key = some j := by
  induction n with
  | zero => omega
  | succ n ih =>
    by_cases hgn : g n = key
    · exact ⟨n, by simp [lastIdx, hgn]⟩
    · have hi2 : i < n := by
        rcases Nat.lt_succ_iff_lt_or_eq.mp hi with h | h
        · exact h
        · subst h
          exact absurd hg hgn
      obtain ⟨j, hj⟩ := ih hi2
      exact ⟨j, by simp [lastIdx, hgn, hj]⟩

/-- With duplicate-free labels, the surviving binding for label `i` is
position `i` itself. -/
theorem lastIdx_nodup (labels : List String) (i : Nat) (hi : i < labels.length)
    (hnd : labels.Nodup) :
    lastIdx (fun j => labels.getD j "") labels.length (labels.getD i "") = some i := by
  obtain ⟨j, hj⟩ := lastIdx_exists (fun j => labels.getD j "") labels.length
    (labels.getD i "") i hi rfl
  obtain ⟨hjn, hgj⟩ := lastIdx_spec _ _ _ j hj
  have hji : j = i := by
    rw [List.getD_eq_getElem _ _ hjn, List.getD_eq_getElem _ _ hi] at hgj
    exact (List.Nodup.getElem_inj_iff hnd).mp hgj
  subst hji
  exact hj

/-- Discretization preserves the sample count. -/
theorem length_discretize (B : Nat) (v : List ℚ) : (discretize B v).length = v.length := by
  cases v with
  | nil => rfl
  | cons x xs =>
    simp only [discretize]
    split <;> simp

/-- A list of non-positive rationals has non-positive sum. -/
theorem sum_nonpos_of_forall (l : List ℚ) (h : ∀ x ∈ l, x ≤ 0) : l.sum ≤ 0 := by
  induction l with
  | nil => simp
  | cons x xs ih =>
    simp only [List.sum_cons]
    have hx := h x (List.mem_cons_self _ _)
    have hxs := ih (fun y hy => h y (List.mem_cons_of_mem _ hy))
    linarith

/-- Sums distribute over flattened maps of rational lists. -/
theorem sum_flatMap_q (l : List Nat) (f : Nat → List ℚ) :
    (l.flatMap f).sum = (l.map (fun a => (f a).sum)).sum := by
  induction l with
  | nil => simp
  | cons x xs ih => simp [List.flatMap_cons, List.sum_append, ih]

/-- The entropy of any histogram with counts bounded by the sample count is
non-negative, provided the logarithm is non-positive on `(0, 1]`. -/
theorem entropy_nonneg (lg : ℚ → ℚ) (m : Nat) (counts : List Nat)
    (hlg : ∀ q : ℚ, 0 < q → q ≤ 1 → lg q ≤ 0)
    (hm : 1 ≤ m) (hc : ∀ c ∈ counts, c ≤ m) :
    0 ≤ entropy lg m counts := by
  unfold entropy
  rw [neg_nonneg]
  apply sum_nonpos_of_forall
  intro x hx
  rw [List.mem_map] at hx
  obtain ⟨c, hcmem, rfl⟩ := hx
  unfold entTerm
  split_ifs with h0
  · exact le_refl 0
  · have hc1 : (1 : ℚ) ≤ (c : ℚ) := by
      exact_mod_cast Nat.one_le_iff_ne_zero.mpr h0
    have hmq : (0 : ℚ) < (m : ℚ) := by exact_mod_cast hm
    have hp : 0 < (c : ℚ) / (m : ℚ) := div_pos (by linarith) hmq
    have hp1 : (c : ℚ) / (m : ℚ) ≤ 1 := by
      rw [div_le_one hmq]
      exact_mod_cast hc c hcmem
    exact mul_nonpos_iff.mpr (Or.inl ⟨hp.le, hlg _ hp hp1⟩)

/-- Zipping a vector with itself puts all joint mass on the diagonal. -/
theorem count_zip_self (d : List Nat) (k l : Nat) :
    (d.zip d).count (k, l) = if k = l then d.count k else 0 := by
  induction d with
  | nil => simp
  | cons x xs ih =>
    simp only [List.zip_cons_cons, List.count_cons, ih]
    by_cases hkl : k = l
    · subst hkl
      by_cases hx : x = k
      · simp [hx]
      · simp [hx, Prod.ext_iff]
    · have hne : ¬((k, l) = (x, x)) := by
        simp only [Prod.mk.injEq]
        rintro ⟨rfl, rfl⟩
        exact hkl rfl
      simp [hkl, hne]
      rintro rfl
      exact hkl

/-- Summing an indicator over `range B` picks out the single live index. -/
theorem sum_map_range_ite (B k : Nat) (x : ℚ) (hk : k < B) :
    ((List.range B).map (fun l => if l = k then x else 0)).sum = x := by
  induction B with
  | zero => omega
  | succ B ih =>
    rw [List.range_succ, List.map_append, List.sum_append]
    by_cases hkB : k = B
    · subst hkB
      have hz : ((List.range k).map (fun l => if l = k then x else 0)).sum = 0 := by
        apply List.sum_eq_zero
        intro y hy
        rw [List.mem_map] at hy
        obtain ⟨l, hl, rfl⟩ := hy
        rw [List.mem_range] at hl
        simp [Nat.ne_of_lt hl]
      simp [hz]
    · have hk2 : k < B := by omega
      have hBk : ¬(B = k) := fun h => hkB h.symm
      simp [ih hk2, hBk]

/-- The joint histogram of a vector with itself collapses to the marginal:
their entropies agree (spec §4.4, diagonal case). -/
theorem entropy_jointCounts_self (lg : ℚ → ℚ) (m B : Nat) (d : List Nat) :
    entropy lg m (jointCounts B d d) = entropy lg m (histogram B d) := by
  unfold entropy jointCounts histogram
  congr 1
  rw [List.map_flatMap, sum_flatMap_q, List.map_map]
  congr 1
  apply List.map_congr_left
  intro k hk
  rw [List.mem_range] at hk
  simp only [Function.comp_apply, List.map_map]
  have step : (List.range B).map (entTerm lg m ∘ fun l => (d.zip d).count (k, l))
      = (List.range B).map (fun l => if l = k then entTerm lg m (d.count k) else 0) := by
    apply List.map_congr_left
    intro l hl
    simp only [Function.comp_apply]
    rw [count_zip_self]
    by_cases h : k = l
    · subst h
      simp
    · have h2 : ¬(l = k) := fun hh => h hh.symm
      simp [h, h2, entTerm]
  rw [step]
  exact sum_map_range_ite B k _ hk

/-- `getD` on a mapped list evaluates the function at the source entry. -/
theorem getD_map_lt {α β : Type _} (f : α → β) (l : List α) (i : Nat) (hi : i < l.length)
    (d1 : β) (d2 : α) : (l.map f).getD i d1 = f (l.getD i d2) := by
  rw [List.getD_eq_getElem _ _ (by simpa using hi), List.getD_eq_getElem _ _ hi,
    List.getElem_map]

/-- A `getD` at a valid index is a member of the list. -/
theorem getD_mem_of_lt {α : Type _} (l : List α) (i : Nat) (hi : i < l.length) (d : α) :
    l.getD i d ∈ l := by
  rw [List.getD_eq_getElem _ _ hi]
  exact List.getElem_mem hi

/-- Flattening singletons is a map. -/
theorem flatMap_single {α β : Type _} (l : List α) (F : α → β) :
    (l.flatMap fun a => [F a]) = l.map F := by
  induction l with
  | nil => rfl
  | cons x xs ih => simp [List.flatMap_cons, ih]

/-- A duplicate-free scan that keeps exactly the position of `a` produces the
singleton image of `a`. -/
theorem filterMap_ite_eq_single {α : Type _} (L : List String) (a : String) (F : String → α)
    (hnd : L.Nodup) (ha : a ∈ L) :
    L.filterMap (fun x => if a = x then some (F x) else none) = [F a] := by
  induction L with
  | nil => cases ha
  | cons b L ih =>
    rw [List.filterMap_cons]
    rcases List.nodup_cons.mp hnd with ⟨hb, hndL⟩
    by_cases hab : a = b
    · subst hab
      simp only [if_pos rfl]
      have hnil : L.filterMap (fun x => if a = x then some (F x) else none) = [] := by
        rw [List.filterMap_eq_nil_iff]
        intro x hx
        rw [if_neg]
        intro h
        subst h
        exact hb hx
      rw [hnil]
      simp
    · rw [if_neg hab]
      apply ih hndL
      rcases List.mem_cons.mp ha with h | h
      · exact absurd h hab
      · exact h

/-- Over a full table with duplicate-free labels, the diagonal extraction of
`inspect_pickle` collects exactly the self-entries, in label order. -/
theorem diagonalValues_fullTable (L : List String) (f : String → String → ℚ)
    (hnd : L.Nodup) :
    diagonalValues (fullTable L f) = L.map (fun g => f g g) := by
  unfold diagonalValues fullTable
  rw [List.flatMap_map]
  have hrow : ∀ g1 ∈ L,
      ((L.map (fun g2 => (g2, f g1 g2))).filterMap
        (fun q => if g1 = q.1 then some q.2 else none)) = [f g1 g1] := by
    intro g1 hg1
    rw [List.filterMap_map]
    have hfn : ((fun q : String × ℚ => if g1 = q.1 then some q.2 else none) ∘
        (fun g2 => (g2, f g1 g2))) = fun g2 => if g1 = g2 then some (f g1 g2) else none := by
      funext g2
      simp [Function.comp]
    rw [hfn]
    exact filterMap_ite_eq_single L g1 (fun g2 => f g1 g2) hnd hg1
  rw [List.flatMap_congr hrow]
  exact flatMap_single L (fun g => f g g)

/-- The keys appended by the cross-pair extraction of `inspect_pickle`,
flattened to label pairs. -/
theorem crossPairs_keys (L : List String) (f : String → String → ℚ) :
    (crossPairs (fullTable L f)).map Prod.fst =
      L.flatMap (fun g1 => L.filterMap (fun g2 =>
        if g1 = g2 then none else if g1 < g2 then some (g1, g2) else none)) := by
  unfold crossPairs fullTable
  rw [List.flatMap_map, List.map_flatMap]
  apply List.flatMap_congr
  intro g1 _
  rw [List.map_filterMap, List.filterMap_map]
  apply List.filterMap_congr
  intro g2 _
  simp only [Function.comp]
  by_cases h12 : g1 = g2
  · simp [h12]
  · by_cases hlt : g1 < g2
    · simp [h12, hlt]
    · simp [h12, hlt]

/-- The keys appended by the benchmark's top-pair extraction, flattened to
label pairs. -/
theorem benchCrossPairs_keys (L : List String) (f : String → String → ℚ) :
    (benchCrossPairs (fullTable L f)).map Prod.fst =
      L.flatMap (fun g1 => L.filterMap (fun g2 =>
        if g1 = g2 then none else some (g1, g2))) := by
  unfold benchCrossPairs fullTable
  rw [List.flatMap_map, List.map_flatMap]
  apply List.flatMap_congr
  intro g1 _
  rw [List.map_filterMap, List.filterMap_map]
  apply List.filterMap_congr
  intro g2 _
  simp only [Function.comp]
  by_cases h12 : g1 = g2
  · simp [h12]
  · simp [h12]

/-- Membership in the cross-pair keys of a full table: both labels occur and
the orientation is strictly increasing. -/
theorem mem_crossPairs_fullTable (L : List String) (f : String → String → ℚ)
    (a b : String) :
    (a, b) ∈ (crossPairs (fullTable L f)).map Prod.fst ↔ a ∈ L ∧ b ∈ L ∧ a < b := by
  rw [crossPairs_keys]
  simp only [List.mem_flatMap, List.mem_filterMap]
  constructor
  · rintro ⟨g1, hg1, g2, hg2, hq⟩
    by_cases h12 : g1 = g2
    · rw [if_pos h12] at hq
      cases hq
    · rw [if_neg h12] at hq
      by_cases hlt : g1 < g2
      · rw [if_pos hlt] at hq
        obtain ⟨rfl, rfl⟩ := Prod.ext_iff.mp (Option.some.inj hq)
        exact ⟨hg1, hg2, hlt⟩
      · rw [if_neg hlt] at hq
        cases hq
  · rintro ⟨ha, hb, hlt⟩
    exact ⟨a, ha, b, hb, by rw [if_neg (ne_of_lt hlt), if_pos hlt]⟩

/-- Membership in the benchmark's cross-pair keys of a full table: both labels
occur, in either orientation, as long as they differ. -/
theorem mem_benchCrossPairs_fullTable (L : List String) (f : String → String → ℚ)
    (a b : String) :
    (a, b) ∈ (benchCrossPairs (fullTable L f)).map Prod.fst ↔ a ∈ L ∧ b ∈ L ∧ a ≠ b := by
  rw [benchCrossPairs_keys]
  simp only [List.mem_flatMap, List.mem_filterMap]
  constructor
  · rintro ⟨g1, hg1, g2, hg2, hq⟩
    by_cases h12 : g1 = g2
    · rw [if_pos h12] at hq
      cases hq
    · rw [if_neg h12] at hq
      obtain ⟨rfl, rfl⟩ := Prod.ext_iff.mp (Option.some.inj hq)
      exact ⟨hg1, hg2, h12⟩
  · rintro ⟨ha, hb, hne⟩
    exact ⟨a, ha, b, hb, by rw [if_neg hne]⟩

/-- With duplicate-free labels, the cross-pair key list of a full table has no
duplicates: each unordered pair is appended exactly once. -/
theorem nodup_crossPairs_fullTable (L : List String) (f : String → String → ℚ)
    (hnd : L.Nodup) :
    ((crossPairs (fullTable L f)).map Prod.fst).Nodup := by
  rw [crossPairs_keys]
  rw [List.nodup_flatMap]
  constructor
  · intro g1 _
    apply List.Nodup.filterMap _ hnd
    intro a b c hca hcb
    rw [Option.mem_def] at hca hcb
    by_cases ha : g1 = a
    · rw [if_pos ha] at hca
      cases hca
    · rw [if_neg ha] at hca
      by_cases ha2 : g1 < a
      · rw [if_pos ha2] at hca
        by_cases hb : g1 = b
        · rw [if_pos hb] at hcb
          cases hcb
        · rw [if_neg hb] at hcb
          by_cases hb2 : g1 < b
          · rw [if_pos hb2] at hcb
            have h1 : ((g1, a) : String × String) = c := Option.some.inj hca
            have h2 : ((g1, b) : String × String) = c := Option.some.inj hcb
            exact congrArg Prod.snd (h1.trans h2.symm)
          · rw [if_neg hb2] at hcb
            cases hcb
      · rw [if_neg ha2] at hca
        cases hca
  · have hp : L.Pairwise (fun a b => a ≠ b) := hnd
    apply hp.imp
    intro a b hab
    intro x hxa hxb
    have hxa2 : x.1 = a := by
      rw [List.mem_filterMap] at hxa
      obtain ⟨g2, _, hq⟩ := hxa
      by_cases h : a = g2
      · rw [if_pos h] at hq
        cases hq
      · rw [if_neg h] at hq
        by_cases h2 : a < g2
        · rw [if_pos h2] at hq
          cases hq
          rfl
        · rw [if_neg h2] at hq
          cases hq
    have hxb2 : x.1 = b := by
      rw [List.mem_filterMap] at hxb
      obtain ⟨g2, _, hq⟩ := hxb
      by_cases h : b = g2
      · rw [if_pos h] at hq
        cases hq
      · rw [if_neg h] at hq
        by_cases h2 : b < g2
        · rw [if_pos h2] at hq
          cases hq
          rfl
        · rw [if_neg h2] at hq
          cases hq
    exact hab (hxa2 ▸ hxb2 ▸ rfl)

/-- A column selection over a rectangular matrix keeps every row. -/
theorem length_filterMap_col (x : List (List ℚ)) (j c : Nat)
    (hrect : ∀ r ∈ x, r.length = c) (hj : j < c) :
    (x.filterMap (fun row => row[j]?)).length = x.length := by
  induction x with
  | nil => rfl
  | cons r x ih =>
    rw [List.filterMap_cons]
    have hr : r.length = c := hrect r (List.mem_cons_self _ _)
    cases hget : r[j]? with
    | none =>
      have hge : r.length ≤ j := by
        by_contra hcon
        push_neg at hcon
        rw [(List.getElem?_eq_some_iff).mpr ⟨hcon, rfl⟩] at hget
        cases hget
      omega
    | some a =>
      simp only [List.length_cons]
      rw [ih (fun r2 hr2 => hrect r2 (List.mem_cons_of_mem _ hr2))]

/-- Claim C1: for every input matrix and label list, the nested mapping
returned by the (spec-modelled) engine is exactly symmetric — `result[g1][g2]`
and `result[g2][g1]` are the same stored value, because each unordered pair is
computed once and mirrored into both slots. -/
theorem claim1_symmetry (lg : ℚ → ℚ) (B : Nat) (rows : List (List ℚ)) (labels : List String)
    (g1 g2 : String) :
    lookup2 (computeMI lg B rows labels) g1 g2 =
      lookup2 (computeMI lg B rows labels) g2 g1 := by
  simp only [computeMI, computeMIWith]
  rw [lookup2_assemble, lookup2_assemble]
  cases h1 : lastIdx (fun i => labels.getD i "") labels.length g1 with
  | none =>
    cases h2 : lastIdx (fun i => labels.getD i "") labels.length g2 with
    | none => rfl
    | some j => rfl
  | some i =>
    cases h2 : lastIdx (fun i => labels.getD i "") labels.length g2 with
    | none => rfl
    | some j =>
      show some ((buildTable _ _ emptyTable i j).getD 0) = some ((buildTable _ _ emptyTable j i).getD 0)
      rw [buildTable_symm _ _ (pairList_le _) i j]

/-- Claim C2: the pair count reported by the benchmark (and recorded as
`n_pairs`), `n(n+1)/2`, equals the number of unordered index pairs `(i, j)`
with `i ≤ j` (diagonal included) that the engine enumerates. -/
theorem claim2_pair_count (n : Nat) : benchNPairs n = (pairList n).length := by
  rw [length_pairList, benchNPairs]

/-- Claim C3: every value stored in the returned mapping is non-negative —
the engine clamps negative floating artifacts to zero before storing. -/
theorem claim3_nonneg (lg : ℚ → ℚ) (B : Nat) (rows : List (List ℚ)) (labels : List String)
    (g1 g2 : String) (v : ℚ)
    (h : lookup2 (computeMI lg B rows labels) g1 g2 = some v) : 0 ≤ v := by
  simp only [computeMI, computeMIWith] at h
  rw [lookup2_assemble] at h
  cases h1 : lastIdx (fun i => labels.getD i "") labels.length g1 with
  | none =>
    rw [h1] at h
    exact Option.noConfusion h
  | some i =>
    cases h2 : lastIdx (fun i => labels.getD i "") labels.length g2 with
    | none =>
      rw [h1, h2] at h
      exact Option.noConfusion h
    | some j =>
      rw [h1, h2] at h
      simp only [Option.some_bind, Option.map_some', Option.some.injEq] at h
      rw [← h]
      rw [buildTable_eq _ _ _ (pairList_le _) i j]
      split_ifs
      · simp only [Option.getD_some, miPair]
        split_ifs with hneg
        · exact le_refl 0
        · linarith [not_lt.mp hneg]
      · simp [emptyTable]

/-- Witness for C3 at a concrete input. -/
theorem claim3_nonneg_witness :
    lookup2 (computeMI (fun q => q - 1) 2 [[0, 1], [1, 0]] ["a", "b"]) "a" "b"
      = some (1 / 2 : ℚ) ∧ (0 : ℚ) ≤ 1 / 2 :=
  ⟨by with_unfolding_all rfl,
   claim3_nonneg (fun q => q - 1) 2 [[0, 1], [1, 0]] ["a", "b"] "a" "b"
    (1 / 2) (by with_unfolding_all rfl)⟩

/-- Claim C4: with duplicate-free labels and a rectangular matrix, the
diagonal entry `result[a][a]` equals gene `a`'s marginal entropy under the
chosen binning — an expression depending only on gene `a`'s own row — provided
the logarithm is non-positive on `(0, 1]` (as the real logarithm is). -/
theorem claim4_diagonal (lg : ℚ → ℚ) (B : Nat) (rows : List (List ℚ)) (labels : List String)
    (m i : Nat)
    (hlg : ∀ q : ℚ, 0 < q → q ≤ 1 → lg q ≤ 0)
    (hnd : labels.Nodup)
    (hi : i < labels.length)
    (hlen : rows.length = labels.length)
    (hrect : ∀ r ∈ rows, r.length = m)
    (hm : 1 ≤ m) :
    lookup2 (computeMI lg B rows labels) (labels.getD i "") (labels.getD i "") =
      some (entropy lg m (histogram B (discretize B (rows.getD i [])))) := by
  have hilen : i < rows.length := by omega
  have hm0 : (rows.getD 0 []).length = m := hrect _ (getD_mem_of_lt rows 0 (by omega) [])
  simp only [computeMI, computeMIWith]
  rw [lookup2_assemble, lastIdx_nodup labels i hi hnd]
  simp only [Option.some_bind, Option.map_some']
  congr 1
  rw [buildTable_eq _ _ _ (pairList_le _) i i]
  have hmem : ((min i i, max i i) ∈ pairList labels.length) := by
    rw [Nat.min_self, Nat.max_self]
    exact (mem_pairList _ i i).mpr ⟨le_refl i, hi⟩
  rw [if_pos hmem, Option.getD_some, Nat.min_self, Nat.max_self]
  simp only [miPair]
  have hds : (rows.map (discretize B)).getD i [] = discretize B (rows.getD i []) :=
    getD_map_lt (discretize B) rows i hilen [] []
  have hhs : ((rows.map (discretize B)).map
        (fun d => entropy lg (rows.getD 0 []).length (histogram B d))).getD i 0
      = entropy lg (rows.getD 0 []).length (histogram B (discretize B (rows.getD i []))) := by
    rw [getD_map_lt _ _ i (by rw [List.length_map]; omega) 0 [], hds]
  rw [hds, hhs, hm0, entropy_jointCounts_self]
  have hH : 0 ≤ entropy lg m (histogram B (discretize B (rows.getD i []))) := by
    apply entropy_nonneg lg m _ hlg hm
    intro c hc
    simp only [histogram, List.mem_map] at hc
    obtain ⟨k, _, rfl⟩ := hc
    calc (discretize B (rows.getD i [])).count k
        ≤ (discretize B (rows.getD i [])).length := List.count_le_length _ _
      _ = (rows.getD i []).length := length_discretize B _
      _ = m := hrect _ (getD_mem_of_lt rows i hilen [])
  have hcond : ¬(entropy lg m (histogram B (discretize B (rows.getD i []))) +
      entropy lg m (histogram B (discretize B (rows.getD i []))) -
      entropy lg m (histogram B (discretize B (rows.getD i []))) < 0) := by
    have heq : entropy lg m (histogram B (discretize B (rows.getD i []))) +
        entropy lg m (histogram B (discretize B (rows.getD i []))) -
        entropy lg m (histogram B (discretize B (rows.getD i [])))
        = entropy lg m (histogram B (discretize B (rows.getD i []))) := by ring
    rw [heq]
    exact not_lt.mpr hH
  rw [if_neg hcond]
  ring

/-- Witness for C4 at a concrete input. -/
theorem claim4_diagonal_witness :
    (∀ q : ℚ, 0 < q → q ≤ 1 → q - 1 ≤ 0) ∧
    lookup2 (computeMI (fun q => q - 1) 2 [[0, 1]] ["a"])
        ((["a"] : List String).getD 0 "") ((["a"] : List String).getD 0 "")
      = some (entropy (fun q => q - 1) 2
          (histogram 2 (discretize 2 (([[0, 1]] : List (List ℚ)).getD 0 [])))) :=
  ⟨fun q h1 h2 => by linarith,
   claim4_diagonal (fun q => q - 1) 2 [[0, 1]] ["a"] 2 0
     (fun q h1 h2 => by show q - 1 ≤ 0; linarith) (by decide) (by decide) (by decide)
     (by decide) (by decide)⟩

/-- Processing any permutation of an upper-triangular work list fills the
table identically: the write order is irrelevant. -/
theorem buildTable_perm (mi : Nat → Nat → ℚ) (ps qs : List (Nat × Nat))
    (hq : ∀ p ∈ qs, p.1 ≤ p.2) (hperm : ps.Perm qs) :
    buildTable mi ps emptyTable = buildTable mi qs emptyTable := by
  funext a b
  have hp : ∀ p ∈ ps, p.1 ≤ p.2 := fun p hmem => hq p (hperm.mem_iff.mp hmem)
  rw [buildTable_eq _ _ _ hp a b, buildTable_eq _ _ _ hq a b]
  by_cases hmem : (min a b, max a b) ∈ qs
  · rw [if_pos (hperm.mem_iff.mpr hmem), if_pos hmem]
  · rw [if_neg (fun hc => hmem (hperm.mem_iff.mp hc)), if_neg hmem]

/-- Claim C5: the engine is deterministic and schedule-independent — running
the pair computations under any worker schedule (any partition of the pair
list into chunks, in any order) produces exactly the output of the canonical
enumeration, because each pair's result depends only on its own two rows and
is written to its own slots. -/
theorem claim5_determinism (lg : ℚ → ℚ) (B : Nat) (rows : List (List ℚ))
    (labels : List String) (sched : List (List (Nat × Nat)))
    (hperm : sched.flatten.Perm (pairList labels.length)) :
    computeMIWith lg B rows labels sched.flatten = computeMI lg B rows labels := by
  simp only [computeMI, computeMIWith]
  rw [buildTable_perm _ sched.flatten (pairList labels.length) (pairList_le _) hperm]

/-- Witness for C5 at a concrete input: a two-chunk out-of-order schedule. -/
theorem claim5_determinism_witness :
    ([[(1, 1), (0, 0)], [(0, 1)]] : List (List (Nat × Nat))).flatten.Perm
      (pairList (["a", "b"] : List String).length) ∧
    computeMIWith (fun q => q - 1) 2 [[0, 1], [1, 0]] ["a", "b"]
        ([[(1, 1), (0, 0)], [(0, 1)]] : List (List (Nat × Nat))).flatten
      = computeMI (fun q => q - 1) 2 [[0, 1], [1, 0]] ["a", "b"] :=
  ⟨by decide,
   claim5_determinism (fun q => q - 1) 2 [[0, 1], [1, 0]] ["a", "b"]
     [[(1, 1), (0, 0)], [(0, 1)]] (by decide)⟩

/-- Claim C6: `benchmark_anndata_mutual_info` converts the loaded matrix —
sparse or dense, stored samples-by-genes — by transposing and densifying, so
the matrix handed to the engine has exactly `nVars` (gene) rows, each of
length `nObs` (samples). -/
theorem claim6_orientation (x : AnnX) (nObs nVars : Nat)
    (hshape : annShape x = (nObs, nVars)) (hwf : annWF x) (hobs : 0 < nObs) :
    (loadMatrix x).length = nVars ∧ ∀ r ∈ loadMatrix x, r.length = nObs := by
  have hd : (toDense x).length = nObs ∧ ∀ r ∈ toDense x, r.length = nVars := by
    cases x with
    | dense rows =>
      simp only [annShape, Prod.mk.injEq] at hshape
      obtain ⟨h1, h2⟩ := hshape
      subst h1
      subst h2
      exact ⟨rfl, hwf⟩
    | sparse r c entries =>
      simp only [annShape, Prod.mk.injEq] at hshape
      obtain ⟨h1, h2⟩ := hshape
      subst h1
      subst h2
      refine ⟨by simp [toDense], ?_⟩
      intro row hrow
      simp only [toDense, List.mem_map] at hrow
      obtain ⟨i, _, rfl⟩ := hrow
      simp
  obtain ⟨hlen, hrect⟩ := hd
  have hpos : 0 < (toDense x).length := by omega
  have hhead : ((toDense x).getD 0 []).length = nVars := hrect _ (getD_mem_of_lt _ 0 hpos [])
  unfold loadMatrix transposeMat
  rw [hhead]
  constructor
  · simp
  · intro row hrow
    simp only [List.mem_map, List.mem_range] at hrow
    obtain ⟨j, hj, rfl⟩ := hrow
    rw [length_filterMap_col (toDense x) j nVars hrect hj, hlen]

/-- Witness for C6 at a concrete input: a dense 3-samples-by-2-genes matrix. -/
theorem claim6_orientation_witness :
    annShape (AnnX.dense [[1, 2], [3, 4], [5, 6]]) = (3, 2) ∧
    (loadMatrix (AnnX.dense [[1, 2], [3, 4], [5, 6]])).length = 2 :=
  ⟨by decide,
   (claim6_orientation (AnnX.dense [[1, 2], [3, 4], [5, 6]]) 3 2
     (by decide) (by unfold annWF; decide) (by decide)).1⟩

/-- Claim C7: the `max_genes` truncation in `benchmark_anndata_mutual_info`
takes the first `max_genes` rows and labels exactly when `max_genes` is truthy
and exceeded, leaves both unchanged otherwise, and always preserves the
positional alignment of label `k` with matrix row `k`. -/
theorem claim7_truncation (maxGenes : Option Nat) (matrix : List (List ℚ))
    (genes : List String) :
    (∀ mg, maxGenes = some mg → mg ≠ 0 → mg < genes.length →
      applyMaxGenes maxGenes matrix genes = (matrix.take mg, genes.take mg)) ∧
    (maxGenes = none → applyMaxGenes maxGenes matrix genes = (matrix, genes)) ∧
    (∀ mg, maxGenes = some mg → (mg = 0 ∨ genes.length ≤ mg) →
      applyMaxGenes maxGenes matrix genes = (matrix, genes)) ∧
    (∀ k, k < (applyMaxGenes maxGenes matrix genes).2.length →
        (applyMaxGenes maxGenes matrix genes).2[k]? = genes[k]? ∧
        (applyMaxGenes maxGenes matrix genes).1[k]? = matrix[k]?) := by
  refine ⟨?_, ?_, ?_, ?_⟩
  · rintro mg rfl hne hlt
    simp [applyMaxGenes, hne, hlt]
  · rintro rfl
    rfl
  · rintro mg rfl hcase
    simp only [applyMaxGenes]
    rw [if_neg]
    rintro ⟨h1, h2⟩
    rcases hcase with h | h
    · exact h1 h
    · omega
  · intro k hk
    rcases maxGenes with _ | mg
    · exact ⟨rfl, rfl⟩
    · simp only [applyMaxGenes] at hk ⊢
      by_cases hcond : mg ≠ 0 ∧ mg < genes.length
      · rw [if_pos hcond] at hk ⊢
        have hkm : k < mg := by
          rw [List.length_take] at hk
          omega
        constructor
        · rw [List.getElem?_take, if_pos hkm]
        · rw [List.getElem?_take, if_pos hkm]
      · rw [if_neg hcond] at hk ⊢
        exact ⟨rfl, rfl⟩

/-- Witness for C7 at concrete inputs: a truncating call and a `None` call. -/
theorem claim7_truncation_witness :
    applyMaxGenes (some 2) [[1], [2], [3]] ["a", "b", "c"]
      = ([[(1 : ℚ)], [2]], ["a", "b"]) ∧
    applyMaxGenes none [[(1 : ℚ)]] ["a"] = ([[(1 : ℚ)]], ["a"]) :=
  ⟨(claim7_truncation (some 2) [[1], [2], [3]] ["a", "b", "c"]).1 2 rfl
      (by decide) (by decide),
   (claim7_truncation none [[(1 : ℚ)]] ["a"]).2.1 rfl⟩

/-- Claim C8: `inspect_pickle` tolerates a missing `metadata` field — for any
record carrying the six required fields, inspection runs to completion with no
key-lookup failure, because `metadata` is read only under the explicit
`detailed and 'metadata' in data` presence check. -/
theorem claim8_metadata_optional (d : List (String × PValue)) (detailed : Bool)
    (ng np : Int) (ct : ℚ) (ts : String) (mi : List (String × List (String × ℚ)))
    (gs : List String)
    (h1 : dlookup d "n_genes" = some (PValue.int ng))
    (h2 : dlookup d "n_pairs" = some (PValue.int np))
    (h3 : dlookup d "computation_time" = some (PValue.num ct))
    (h4 : dlookup d "timestamp" = some (PValue.str ts))
    (h5 : dlookup d "mutual_information" = some (PValue.table mi))
    (h6 : dlookup d "genes" = some (PValue.strs gs))
    (hmeta : hasKey d "metadata" = false) :
    inspectRecord d detailed =
      Except.ok (ng, np, ct, ts, diagonalValues mi, crossPairs mi, none) := by
  unfold inspectRecord pyGet
  rw [h1, h2, h3, h4, h5, h6, hmeta]
  simp [asInt, asNum, asStr, asTable, asStrs, Bind.bind, Except.bind, pure, Except.pure]

/-- Witness for C8 at a concrete record with no `metadata` key. -/
theorem claim8_metadata_optional_witness :
    hasKey [("n_genes", PValue.int 1), ("n_pairs", PValue.int 1),
      ("computation_time", PValue.num 0), ("timestamp", PValue.str "t"),
      ("mutual_information", PValue.table [("g", [("g", 1)])]),
      ("genes", PValue.strs ["g"])] "metadata" = false ∧
    inspectRecord [("n_genes", PValue.int 1), ("n_pairs", PValue.int 1),
      ("computation_time", PValue.num 0), ("timestamp", PValue.str "t"),
      ("mutual_information", PValue.table [("g", [("g", 1)])]),
      ("genes", PValue.strs ["g"])] true =
      Except.ok (1, 1, 0, "t", diagonalValues [("g", [("g", 1)])],
        crossPairs [("g", [("g", 1)])], none) :=
  ⟨by decide,
   claim8_metadata_optional _ true 1 1 0 "t" [("g", [("g", 1)])] ["g"]
     (by decide) (by decide) (by decide) (by decide) (by decide) (by decide)
     (by decide)⟩

/-- Claim C9: the inspection utility fails cleanly on bad input — a missing
pickle file, or one that exists but cannot be loaded, produces exit status 1
before any inspection, never a propagated raw exception. -/
theorem claim9_clean_failure (fs : String → FileState) (path : String) (detailed : Bool)
    (h : fs path = FileState.missing ∨ fs path = FileState.unreadable) :
    mainInspect fs path detailed = Outcome.exited 1 := by
  rcases h with h | h <;> simp [mainInspect, runInspect, h]

/-- Witness for C9 at a concrete file system with a missing file. -/
theorem claim9_clean_failure_witness :
    ((fun _ : String => FileState.missing) "results.pkl" = FileState.missing ∨
      (fun _ : String => FileState.missing) "results.pkl" = FileState.unreadable) ∧
    mainInspect (fun _ => FileState.missing) "results.pkl" true = Outcome.exited 1 :=
  ⟨Or.inl rfl,
   claim9_clean_failure (fun _ => FileState.missing) "results.pkl" true (Or.inl rfl)⟩

/-- Claim C10: over a fully populated symmetric mapping with distinct labels,
`inspect_pickle` classifies an entry as self-information exactly when its two
keys are equal (the diagonal list is precisely the self-entries), appends each
unordered cross pair exactly once and only in lexicographically increasing
orientation, while `benchmark.py`'s top-pair extraction appends both
orientations of every cross pair. -/
theorem claim10_pair_extraction (L : List String) (f : String → String → ℚ)
    (hnd : L.Nodup) (hsym : ∀ a b, f a b = f b a) :
    diagonalValues (fullTable L f) = L.map (fun g => f g g) ∧
    (∀ a b : String, (a, b) ∈ (crossPairs (fullTable L f)).map Prod.fst ↔
      (a ∈ L ∧ b ∈ L ∧ a < b)) ∧
    ((crossPairs (fullTable L f)).map Prod.fst).Nodup ∧
    (∀ a b : String, (a, b) ∈ (benchCrossPairs (fullTable L f)).map Prod.fst ↔
      (a ∈ L ∧ b ∈ L ∧ a ≠ b)) :=
  ⟨diagonalValues_fullTable L f hnd,
   fun a b => mem_crossPairs_fullTable L f a b,
   nodup_crossPairs_fullTable L f hnd,
   fun a b => mem_benchCrossPairs_fullTable L f a b⟩

/-- Witness for C10 at a concrete three-label table. -/
theorem claim10_pair_extraction_witness :
    (["b", "a", "c"] : List String).Nodup ∧
    diagonalValues (fullTable ["b", "a", "c"] (fun _ _ => (1 : ℚ)))
      = (["b", "a", "c"] : List String).map (fun g => (1 : ℚ)) :=
  ⟨by decide,
   (claim10_pair_extraction ["b", "a", "c"] (fun _ _ => (1 : ℚ))
     (by decide) (fun a b => rfl)).1⟩

end GVMI
